import Mathlib

/-!
Shallow embedding of the Modus core: the logic IR, the surface-to-IR
translator (src/src/modusfile.rs, `From<&ModusClause> for Vec<logic::Clause>`),
the SLD resolver (src/src/sld.rs) and the string-escape processing of the
surface parser (src/src/modusfile.rs, `process_raw_string` and friends).

Modules of the repository that are referenced by the sources but are not
present under src/ (logic.rs, unification.rs, builtin.rs, wellformed.rs,
dockerfile.rs) are modelled from the specification; each such definition
says so in its doc comment.

Conventions: the two process-wide atomic counters of the Rust code (the
fresh-auxiliary-variable counter of rule renaming and the
fresh-auxiliary-predicate counter of the translator) are threaded through
the functions as explicit state of type Nat; a Rust panic is modelled as
`Except.error ()` (for the resolver) or `Option.none` / `PRes.fault` (for
the parser); `u32` wrap-around of `fetch_add` is modelled with `% 2 ^ 32`.
-/

namespace Modus

/-- Modelled from the spec: terms of the logic IR (spec section 3) — the type
lives in logic.rs, which is not under src/. Only `Constant` is ground; the two
variable kinds are kept distinct. -/
inductive IRTerm where
  | Constant (s : String)
  | UserVariable (s : String)
  | AuxiliaryVariable (n : Nat)
deriving DecidableEq

/-- Modelled from the spec: a literal is a predicate name with an ordered list
of terms (spec section 3; logic.rs is not under src/). The `Predicate`
newtype of the source is flattened to its `String` payload (`predicate.0`). -/
structure Literal where
  predicate : String
  args : List IRTerm
deriving DecidableEq

/-- Modelled from the spec: a signature is the pair (name, arity). -/
def Literal.signature (l : Literal) : String × Nat :=
  (l.predicate, l.args.length)

/-- Modelled from the spec: a Horn clause — head plus ordered body. -/
structure Clause where
  head : Literal
  body : List Literal
deriving DecidableEq

/-- Modelled from the spec: a substitution is a finite mapping from variables
to terms (spec section 3); the Rust `Substitution` is a `HashMap<IRTerm, IRTerm>`,
embedded as an association list with unique keys. -/
abbrev Substitution := List (IRTerm × IRTerm)

/-- First-match lookup in an association list of terms. -/
def lookupSub : Substitution → IRTerm → Option IRTerm
  | [], _ => none
  | (k, v) :: rest, t => if k = t then some v else lookupSub rest t

/-- Modelled from the spec: applying a substitution to a term is a map lookup
that leaves unmapped terms unchanged (unification.rs is not under src/). -/
def IRTerm.substitute (t : IRTerm) (s : Substitution) : IRTerm :=
  match lookupSub s t with
  | some v => v
  | none => t

/-- Applying a substitution to every argument of a literal. -/
def Literal.substitute (l : Literal) (s : Substitution) : Literal :=
  { l with args := l.args.map (fun t => t.substitute s) }

/-- Applying a substitution to head and body of a clause. -/
def Clause.substitute (c : Clause) (s : Substitution) : Clause :=
  { head := c.head.substitute s, body := c.body.map (fun l => l.substitute s) }

/-- True exactly on `Constant` terms (ground terms of the flat IR). -/
def IRTerm.isConstant : IRTerm → Bool
  | .Constant _ => true
  | _ => false

/-! ## Surface expressions and the surface-to-IR translator (src/src/modusfile.rs) -/

theorem list_sizeOf_pos {α : Type} [SizeOf α] (l : List α) : 0 < sizeOf l := by
  cases l <;> simp_arith

/-- Surface expression (src/src/modusfile.rs, `enum Expression`): a literal, an
operator applied to an expression, a conjunction list or a disjunction list. -/
inductive Expression where
  | Literal (l : Modus.Literal)
  | OperatorApplication (e : Expression) (op : Modus.Literal)
  | ConjunctionList (es : List Expression)
  | DisjunctionList (es : List Expression)

/-- Surface clause (src/src/modusfile.rs, `struct ModusClause`): a head literal
and an optional expression body (`None` means fact). -/
structure ModusClause where
  head : Literal
  body : Option Expression

/-- The modulus of the `AtomicU32` counter `AVAILABLE_LITERAL_INDEX`
(src/src/modusfile.rs line 81). -/
def U32SIZE : Nat := 4294967296

/-- The embedding of `AVAILABLE_LITERAL_INDEX.fetch_add(1, Ordering::SeqCst)`
(src/src/modusfile.rs lines 108-116 and 138-146): given the current counter
state it returns the value drawn and the new state; `fetch_add` on `AtomicU32`
wraps around on overflow. -/
def fetchAdd (c : Nat) : Nat × Nat :=
  (c, (c + 1) % U32SIZE)

/-- The name of the fresh auxiliary predicate `__replaced{n}`
(src/src/modusfile.rs lines 109-116). -/
def mkReplaced (n : Nat) : Literal :=
  { predicate := "__replaced" ++ toString n, args := [] }

mutual

/-- The translator `From<&ModusClause> for Vec<logic::Clause>`
(src/src/modusfile.rs lines 83-165), with the head and optional body of the
`ModusClause` passed separately and the `AVAILABLE_LITERAL_INDEX` counter
threaded explicitly. -/
def toClauses (head : Literal) : Option Expression → Nat → List Clause × Nat
  | none, c => ([{ head := head, body := [] }], c)
  | some (.Literal l), c => ([{ head := head, body := [l] }], c)
  | some (.OperatorApplication e _), c => toClauses head (some e) c
  | some (.ConjunctionList es), c =>
    match conjGo es c with
    | (cls, lits, c1) => (cls ++ [{ head := head, body := lits }], c1)
  | some (.DisjunctionList es), c => disjGo head es c
termination_by body _c => sizeOf body
decreasing_by
  all_goals simp_wf
  all_goals omega

/-- The loop of the `ConjunctionList` arm (src/src/modusfile.rs lines 102-129):
literal elements are kept in place, every other element is replaced by a fresh
`__replaced{n}` literal whose defining clauses are emitted recursively; the
clause `head :- lits` itself is pushed by the caller, after all of these. -/
def conjGo : List Expression → Nat → List Clause × List Literal × Nat
  | [], c => ([], [], c)
  | .Literal l :: rest, c =>
    match conjGo rest c with
    | (cls, lits, c1) => (cls, l :: lits, c1)
  | e :: rest, c =>
    match fetchAdd c with
    | (n, c1) =>
      match toClauses (mkReplaced n) (some e) c1 with
      | (cls1, c2) =>
        match conjGo rest c2 with
        | (cls2, lits, c3) => (cls1 ++ cls2, mkReplaced n :: lits, c3)
termination_by es _c => sizeOf es
decreasing_by
  all_goals simp_wf
  all_goals first
    | omega
    | (have h1 := list_sizeOf_pos (α := Expression) rest; omega)

/-- The loop of the `DisjunctionList` arm (src/src/modusfile.rs lines 130-157):
one clause per disjunct — directly for literal disjuncts, through a fresh
`__replaced{n}` auxiliary otherwise. -/
def disjGo (head : Literal) : List Expression → Nat → List Clause × Nat
  | [], c => ([], c)
  | .Literal l :: rest, c =>
    match disjGo head rest c with
    | (cls, c1) => ({ head := head, body := [l] } :: cls, c1)
  | e :: rest, c =>
    match fetchAdd c with
    | (n, c1) =>
      match toClauses (mkReplaced n) (some e) c1 with
      | (cls1, c2) =>
        match disjGo head rest c2 with
        | (cls2, c3) => ({ head := head, body := [mkReplaced n] } :: cls1 ++ cls2, c3)
termination_by es _c => sizeOf es
decreasing_by
  all_goals simp_wf
  all_goals first
    | omega
    | (have h1 := list_sizeOf_pos (α := Expression) rest; omega)

end

/-- Translation of a whole surface clause, mirroring the `From` impl. -/
def ModusClause.toIR (mc : ModusClause) (c : Nat) : List Clause × Nat :=
  toClauses mc.head mc.body c

mutual

/-- The pruning pass `Expression::prune` (src/src/modusfile.rs lines 44-68):
a singleton conjunction or disjunction collapses to its pruned sole element;
an operator application prunes its sub-expression; literals are unchanged. -/
def prune : Expression → Expression
  | .ConjunctionList es =>
    (match pruneList es with
     | [e] => e
     | pruned => .ConjunctionList pruned)
  | .DisjunctionList es =>
    (match pruneList es with
     | [e] => e
     | pruned => .DisjunctionList pruned)
  | .OperatorApplication e op => .OperatorApplication (prune e) op
  | e => e
termination_by e => sizeOf e
decreasing_by
  all_goals simp_wf
  all_goals omega

/-- Pruning each element of an expression list (the `map(|e| e.prune())` of
the two list arms). -/
def pruneList : List Expression → List Expression
  | [] => []
  | e :: rest => prune e :: pruneList rest
termination_by es => sizeOf es
decreasing_by
  all_goals simp_wf
  all_goals omega

end

/-! ## String-escape processing and the clause parser (src/src/modusfile.rs, parser module) -/

theorem dropWhile_length_le {α : Type} (p : α → Bool) :
    ∀ l : List α, (l.dropWhile p).length ≤ l.length := by
  intro l
  induction l with
  | nil => simp [List.dropWhile]
  | cons a rest ih =>
    by_cases h : p a = true
    · simp only [List.dropWhile, h, List.length_cons]
      omega
    · simp only [List.dropWhile, h]
      simp

/-- The escape processing `process_raw_string` (src/src/modusfile.rs lines
363-397), on the character list of the input string: recognised escapes are
replaced, a backslash-newline consumes the following whitespace (string
continuation), an unrecognised escape is kept verbatim, and an input that ends
with a bare backslash panics (`None` here): the Rust code reads the character
after the backslash with `chars.next()` and hits the
`None => panic!(...)` arm. -/
def process_raw_string : List Char → Option (List Char)
  | [] => some []
  | '\\' :: rest =>
    match rest with
    | [] => none
    | '"' :: rest2 => (process_raw_string rest2).map (fun t => '"' :: t)
    | '\\' :: rest2 => (process_raw_string rest2).map (fun t => '\\' :: t)
    | 'n' :: rest2 => (process_raw_string rest2).map (fun t => '\n' :: t)
    | 'r' :: rest2 => (process_raw_string rest2).map (fun t => '\r' :: t)
    | 't' :: rest2 => (process_raw_string rest2).map (fun t => '\t' :: t)
    | '0' :: rest2 => (process_raw_string rest2).map (fun t => Char.ofNat 0 :: t)
    | '\n' :: rest2 => process_raw_string (rest2.dropWhile Char.isWhitespace)
    | c :: rest2 => (process_raw_string rest2).map (fun t => '\\' :: c :: t)
  | c :: rest => (process_raw_string rest).map (fun t => c :: t)
termination_by s => s.length
decreasing_by
  all_goals simp_wf
  all_goals try omega
  have h1 := dropWhile_length_le Char.isWhitespace rest2
  omega

/-- The scan of `process_raw_string` with the output construction dropped:
true exactly when the input ends with a backslash that begins an escape
sequence with no character after it (the event on which the Rust code
panics). -/
def dangling : List Char → Bool
  | [] => false
  | '\\' :: rest =>
    match rest with
    | [] => true
    | '"' :: rest2 => dangling rest2
    | '\\' :: rest2 => dangling rest2
    | 'n' :: rest2 => dangling rest2
    | 'r' :: rest2 => dangling rest2
    | 't' :: rest2 => dangling rest2
    | '0' :: rest2 => dangling rest2
    | '\n' :: rest2 => dangling (rest2.dropWhile Char.isWhitespace)
    | _ :: rest2 => dangling rest2
  | _ :: rest => dangling rest
termination_by s => s.length
decreasing_by
  all_goals simp_wf
  all_goals try omega
  have h1 := dropWhile_length_le Char.isWhitespace rest2
  omega

/-- The input recognised by `string_content`'s
`recognize(fold_many0(alt((tag("\\\""), is_not("\""))), ...))`
(src/src/modusfile.rs lines 399-409): each iteration consumes either the
two-character sequence backslash-quote (`tag`) or a maximal nonempty run of
characters other than a double quote (`is_not`); after such a run the next
character is a quote or the end, so both alternatives fail and the fold
stops. Returns (consumed, remaining). -/
def scRecognize : List Char → List Char × List Char
  | '\\' :: '"' :: rest =>
    match scRecognize rest with
    | (a, b) => ('\\' :: '"' :: a, b)
  | s => (s.takeWhile (fun c => c ≠ '"'), s.dropWhile (fun c => c ≠ '"'))

/-- Result of a parser: `done` with value and remaining input, `fail` for a
nom error, `fault` for a Rust panic (which aborts the whole parse, no
alternative is tried). `fail` covers both `Err::Error` and the `Err::Failure`
produced by `cut`; the distinction controls only whether an enclosing `alt`
tries its next alternative, and the grammar's one `alt` over alternatives
with different shapes — `alt((fact, rule))` — has alternatives that parse the
same `head` prefix, so a `Failure` raised inside `fact`'s head would make
`rule`'s identical head parse fail as well: merging the two error kinds
preserves every parse verdict. -/
inductive PRes (α : Type) where
  | done (v : α) (rest : List Char)
  | fail
  | fault

/-- The parser `string_content` (src/src/modusfile.rs lines 399-409): the
recognised raw text is passed through `process_raw_string`, whose panic is a
fault. -/
def string_content (i : List Char) : PRes (List Char) :=
  match scRecognize i with
  | (consumed, rest) =>
    match process_raw_string consumed with
    | none => .fault
    | some s => .done s rest

/-- The parser `modus_const` (src/src/modusfile.rs lines 411-414):
`delimited(alt((tag("\""), tag("f\""))), string_content, cut(tag("\"")))`. -/
def modus_const (i : List Char) : PRes (List Char) :=
  match i with
  | '"' :: rest =>
    (match string_content rest with
     | .fault => .fault
     | .fail => .fail
     | .done s rest2 =>
       match rest2 with
       | '"' :: rest3 => .done s rest3
       | _ => .fail)
  | 'f' :: '"' :: rest =>
    (match string_content rest with
     | .fault => .fault
     | .fail => .fail
     | .done s rest2 =>
       match rest2 with
       | '"' :: rest3 => .done s rest3
       | _ => .fail)
  | _ => .fail

/-- Modelled from the spec: `literal_identifier` (logic.rs, not under src/) —
the maximal nonempty run of alphanumeric or underscore characters. -/
def identP (i : List Char) : PRes (List Char) :=
  match i.takeWhile (fun c => c.isAlphanum || c = '_') with
  | [] => .fail
  | run => .done run (i.drop run.length)

/-- Modelled from the spec: a term of the surface grammar (parsed by
`logic::parser::literal(modus_const, modus_var)`, logic.rs not under src/) — a
string constant (through the `modus_const` of modusfile.rs, whose panic is a
fault) or a variable identifier. -/
def termP (i : List Char) : PRes IRTerm :=
  match modus_const i with
  | .done s rest => .done (.Constant (String.mk s)) rest
  | .fault => .fault
  | .fail =>
    match identP i with
    | .done v rest => .done (.UserVariable (String.mk v)) rest
    | .fault => .fault
    | .fail => .fail

/-- Modelled from the spec: comma-separated argument terms of a literal
(logic.rs not under src/), with fuel for the separated list; a fault in any
term parse aborts. -/
def argsP : Nat → List Char → PRes (List IRTerm)
  | 0, _ => .fail
  | fuel + 1, i =>
    match termP i with
    | .fault => .fault
    | .fail => .fail
    | .done t rest =>
      match rest with
      | ',' :: rest2 =>
        (match argsP fuel rest2 with
         | .fault => .fault
         | .fail => .fail
         | .done ts rest3 => .done (t :: ts) rest3)
      | _ => .done [t] rest

/-- Modelled from the spec: `logic::parser::literal(modus_const, modus_var)`
(logic.rs not under src/) — an identifier, optionally followed by a
parenthesised comma-separated argument list. A panic inside `modus_const`
(through a term) aborts the parse. -/
def literalP (i : List Char) : PRes Literal :=
  match identP i with
  | .fault => .fault
  | .fail => .fail
  | .done name rest =>
    match rest with
    | '(' :: rest2 =>
      (match argsP (rest2.length + 1) rest2 with
       | .fault => .fault
       | .fail => .fail
       | .done args rest3 =>
         match rest3 with
         | ')' :: rest4 => .done { predicate := String.mk name, args := args } rest4
         | _ => .fail)
    | _ => .done { predicate := String.mk name, args := [] } rest

/-- The parser `fact` (src/src/modusfile.rs lines 335-342):
`terminated(head, tag("."))` with `head = literal(modus_const, modus_var)`. -/
def factP (i : List Char) : PRes ModusClause :=
  match literalP i with
  | .fault => .fault
  | .fail => .fail
  | .done h rest =>
    match rest with
    | '.' :: rest2 => .done { head := h, body := none } rest2
    | _ => .fail

/-- Dropping `multispace0` (spaces, tabs, carriage returns, line feeds). -/
def dropMultispace (i : List Char) : List Char :=
  i.dropWhile (fun c => c = ' ' ∨ c = '\t' ∨ c = '\n' ∨ c = '\r')

/-- The parser `comment` (src/src/modusfile.rs lines 284-286):
`delimited(tag("#"), not_line_ending, line_ending)` — a `#`, the run of
characters before the next CR or LF, then a line ending (`"\n"` or
`"\r\n"`). -/
def commentP (i : List Char) : PRes (List Char) :=
  match i with
  | '#' :: rest =>
    (match rest.dropWhile (fun c => c ≠ '\n' ∧ c ≠ '\r') with
     | '\n' :: rest2 => .done (rest.takeWhile (fun c => c ≠ '\n' ∧ c ≠ '\r')) rest2
     | '\r' :: '\n' :: rest2 => .done (rest.takeWhile (fun c => c ≠ '\n' ∧ c ≠ '\r')) rest2
     | _ => .fail)
  | _ => .fail

/-- The parser `comments` (src/src/modusfile.rs lines 288-294):
`delimited(multispace0, separated_list0(multispace0, comment), multispace0)`.
Its parsed comment texts are discarded by every caller, so only the consumed
input matters: whitespace and whole comments are skipped until neither
applies. Each iteration that continues consumes a comment (at least two
characters), so fuel `length + 1` never runs out. -/
def commentsP : Nat → List Char → List Char
  | 0, i => i
  | fuel + 1, i =>
    let j := dropMultispace i
    match commentP j with
    | .done _ rest => commentsP fuel rest
    | _ => j

mutual

/-- The parser `body` (src/src/modusfile.rs lines 317-333): a
semicolon-separated list (`DisjunctionList`) of comma-separated lists
(`ConjunctionList`) of inner expressions, preceded by `comments`, with the
result pruned. All the expression parsers take fuel, decremented on every
call in the group; at most four consecutive calls happen without consuming a
character (body → disjunction list → conjunction list → inner expression,
which then consumes an opening parenthesis or a nonempty literal), so fuel
`4 * length + 8` at the entry point never runs out. -/
def bodyP : Nat → List Char → PRes Expression
  | 0, _ => .fail
  | fuel + 1, i =>
    match disjElemsP fuel (commentsP (i.length + 1) i) with
    | .fault => .fault
    | .fail => .fail
    | .done es rest => .done (prune (.DisjunctionList es)) rest

/-- The `semi_separated_exprs` list of `body`:
`separated_list1(delimited(comments, tag(";"), comments), comma_separated_exprs)` —
the first conjunction group, then the separator loop. -/
def disjElemsP : Nat → List Char → PRes (List Expression)
  | 0, _ => .fail
  | fuel + 1, i =>
    match conjElemsP fuel i with
    | .fault => .fault
    | .fail => .fail
    | .done es rest =>
      match disjRestP fuel rest with
      | .fault => .fault
      | .fail => .fail
      | .done more rest2 => .done (Expression.ConjunctionList es :: more) rest2

/-- The loop of the semicolon-separated list: repeatedly a `;` separator
(with `comments` around it) and a conjunction group; when the separator is
absent or the group after it fails, the loop stops with the separator
unconsumed (nom's `separated_list1` backtracks). -/
def disjRestP : Nat → List Char → PRes (List Expression)
  | 0, _ => .fail
  | fuel + 1, i =>
    match commentsP (i.length + 1) i with
    | ';' :: rest =>
      (match conjElemsP fuel (commentsP (rest.length + 1) rest) with
       | .fault => .fault
       | .fail => .done [] i
       | .done es rest2 =>
         match disjRestP fuel rest2 with
         | .fault => .fault
         | .fail => .fail
         | .done more rest3 => .done (Expression.ConjunctionList es :: more) rest3)
    | _ => .done [] i

/-- The `comma_separated_exprs` list of `body`:
`separated_list1(delimited(comments, tag(","), comments), expression_inner)`. -/
def conjElemsP : Nat → List Char → PRes (List Expression)
  | 0, _ => .fail
  | fuel + 1, i =>
    match expression_innerP fuel i with
    | .fault => .fault
    | .fail => .fail
    | .done e rest =>
      match conjRestP fuel rest with
      | .fault => .fault
      | .fail => .fail
      | .done more rest2 => .done (e :: more) rest2

/-- The loop of the comma-separated list, backtracking like `disjRestP`. -/
def conjRestP : Nat → List Char → PRes (List Expression)
  | 0, _ => .fail
  | fuel + 1, i =>
    match commentsP (i.length + 1) i with
    | ',' :: rest =>
      (match expression_innerP fuel (commentsP (rest.length + 1) rest) with
       | .fault => .fault
       | .fail => .done [] i
       | .done e rest2 =>
         match conjRestP fuel rest2 with
         | .fault => .fault
         | .fail => .fail
         | .done more rest3 => .done (e :: more) rest3)
    | _ => .done [] i

/-- The parser `expression_inner` (src/src/modusfile.rs lines 300-315):
`alt((lit_parser, op_application_parser, parenthesized_expr))`. The literal
alternative is tried first; the other two parse the identical prefix
`tag("(")`, `body`, `cut(tag(")"))`, so it is parsed once and the `::`
decides between an operator application (with `cut` on the operator literal)
and a plain parenthesised expression. A panic inside any literal parse (its
string constants go through `modus_const`) is a fault. -/
def expression_innerP : Nat → List Char → PRes Expression
  | 0, _ => .fail
  | fuel + 1, i =>
    match literalP i with
    | .fault => .fault
    | .done l rest => .done (.Literal l) rest
    | .fail =>
      match i with
      | '(' :: rest =>
        (match bodyP fuel rest with
         | .fault => .fault
         | .fail => .fail
         | .done e rest2 =>
           match rest2 with
           | ')' :: rest3 =>
             (match rest3 with
              | ':' :: ':' :: rest4 =>
                (match literalP rest4 with
                 | .fault => .fault
                 | .fail => .fail
                 | .done op rest5 => .done (.OperatorApplication e op) rest5)
              | _ => .done e rest3)
           | _ => .fail)
      | _ => .fail

end

/-- The parser `rule` (src/src/modusfile.rs lines 344-356):
`separated_pair(head, delimited(space0, tag(":-"), multispace0),
cut(terminated(body, tag("."))))` — the same `head` literal as `fact` (a
panic there aborts both alternatives), the `:-` separator with spaces or
tabs before it and any whitespace after it, then the body expression and the
terminating dot. -/
def ruleP (i : List Char) : PRes ModusClause :=
  match literalP i with
  | .fault => .fault
  | .fail => .fail
  | .done h rest =>
    match rest.dropWhile (fun c => c = ' ' ∨ c = '\t') with
    | ':' :: '-' :: rest2 =>
      (match bodyP (4 * rest2.length + 8) (dropMultispace rest2) with
       | .fault => .fault
       | .fail => .fail
       | .done e rest3 =>
         match rest3 with
         | '.' :: rest4 => .done { head := h, body := some e } rest4
         | _ => .fail)
    | _ => .fail

/-- The parser `modus_clause` (src/src/modusfile.rs lines 424-426):
`alt((fact, rule))`; a fault in `fact` aborts without trying `rule`. -/
def modus_clauseP (i : List Char) : PRes ModusClause :=
  match factP i with
  | .fault => .fault
  | .done c rest => .done c rest
  | .fail => ruleP i

/-- Modelled from the spec: skipping of `dockerfile::parser::ignored_line`
(dockerfile.rs, not under src/) — comment lines and line breaks before a
clause. -/
def skipIgnored : Nat → List Char → List Char
  | 0, i => i
  | fuel + 1, '#' :: rest => skipIgnored fuel (rest.dropWhile (fun c => c ≠ '\n'))
  | fuel + 1, '\n' :: rest => skipIgnored fuel rest
  | fuel + 1, '\r' :: rest => skipIgnored fuel rest
  | _ + 1, i => i

/-- The loop of the parser `modusfile` (src/src/modusfile.rs lines 428-439):
`many0(preceded(many0(ignored_line), modus_clause))` terminated by ignored
lines and `eof`, with fuel for the iteration; a fault in any clause parse
aborts the whole file parse. -/
def modusfileGo : Nat → List Char → List ModusClause → PRes (List ModusClause)
  | 0, _, _ => .fail
  | fuel + 1, i, acc =>
    match modus_clauseP (skipIgnored (i.length + 1) i) with
    | .fault => .fault
    | .done c rest => modusfileGo fuel rest (c :: acc)
    | .fail =>
      match skipIgnored (i.length + 1) i with
      | [] => .done acc.reverse []
      | _ => .fail

/-- The public parser entry `Modusfile::from_str` (src/src/modusfile.rs lines
185-197), on the character list of the input. -/
def modusfileFromStr (s : String) : PRes (List ModusClause) :=
  modusfileGo (s.length + 1) s.data []

/-! ## Unification, renaming, builtins and the groundness analysis
(unification.rs, builtin.rs and wellformed.rs are not under src/; all of the
following are modelled from the spec, sections 4.1-4.3). -/

/-- Binding a variable during unification: the new pair is added and the
binding is substituted into the ranges of the prior bindings (spec 4.1:
"variable vs anything — bind, substituting into prior bindings"). -/
def bindVar (s : Substitution) (v t : IRTerm) : Substitution :=
  s.map (fun p => (p.1, p.2.substitute [(v, t)])) ++ [(v, t)]

/-- Modelled from the spec (4.1): the argument-pair walk of literal
unification over the flat term language — equal terms are trivial, distinct
constants fail, otherwise the variable side is bound. -/
def unifyArgs : List (IRTerm × IRTerm) → Substitution → Option Substitution
  | [], s => some s
  | (t1, t2) :: rest, s =>
    let u1 := t1.substitute s
    let u2 := t2.substitute s
    if u1 = u2 then unifyArgs rest s
    else
      match u1, u2 with
      | .Constant _, .Constant _ => none
      | .Constant _, _ => unifyArgs rest (bindVar s u2 u1)
      | _, _ => unifyArgs rest (bindVar s u1 u2)

/-- Modelled from the spec (4.1): unification of two literals fails when the
signatures differ and otherwise walks the argument pairs. -/
def Literal.unify (a b : Literal) : Option Substitution :=
  if a.signature = b.signature then unifyArgs (a.args.zip b.args) [] else none

/-- The variables (non-constant argument terms) of a literal. -/
def Literal.variables (l : Literal) : List IRTerm :=
  l.args.filter (fun t => !t.isConstant)

/-- The variables of a clause, without duplicates. -/
def Clause.variables (c : Clause) : List IRTerm :=
  (c.head.variables ++ (c.body.map Literal.variables).flatten).dedup

/-- Modelled from the spec (4.1): `rename_with_sub` freshens every variable of
a clause to an `AuxiliaryVariable` drawn from the monotonic counter, returning
the renamed clause, the renaming substitution and the new counter state. -/
def rename_with_sub (c : Clause) (counter : Nat) : Clause × Substitution × Nat :=
  let vars := c.variables
  let ren : Substitution :=
    vars.enum.map (fun p => (p.2, IRTerm.AuxiliaryVariable (counter + p.1)))
  (c.substitute ren, ren, counter + vars.length)

/-- The three answers of the builtin dispatcher (spec 4.2; builtin.rs is not
under src/). -/
inductive SelectBuiltinResult where
  | Match
  | GroundnessMismatch
  | NoMatch
deriving DecidableEq

/-- Whether a dispatcher answer is `Match` (`SelectBuiltinResult::is_match`). -/
def SelectBuiltinResult.is_match : SelectBuiltinResult → Bool
  | .Match => true
  | _ => false

/-- Modelled from the spec (4.2): `builtin::select_builtin` — the primary
builtin is three-place `string_concat`; its groundness is supported when at
least two of the three arguments are constants, otherwise the dispatcher
answers `GroundnessMismatch`; every other signature is `NoMatch`
(user-defined). -/
def select_builtin (l : Literal) : SelectBuiltinResult :=
  match l.predicate, l.args with
  | "string_concat", [a, b, c] =>
    if (a.isConstant && b.isConstant) || (a.isConstant && c.isConstant)
        || (b.isConstant && c.isConstant) then
      .Match
    else .GroundnessMismatch
  | _, _ => .NoMatch

/-- Modelled from the spec (4.2): the candidate instantiated literal computed
by the matched builtin (`pred.apply(&l.literal)`): for ground `A`, `B` it is
`string_concat(A, B, A ++ B)`; for ground `A`, `C` with `C` beginning with `A`
the middle argument is the rest of `C`; symmetrically for ground `B`, `C`; no
candidate otherwise. -/
def builtinApply (l : Literal) : Option Literal :=
  match l.predicate, l.args with
  | "string_concat", [.Constant a, .Constant b, _] =>
    some { predicate := l.predicate, args := [.Constant a, .Constant b, .Constant (a ++ b)] }
  | "string_concat", [.Constant a, _, .Constant c] =>
    if c.startsWith a then
      some { predicate := l.predicate,
             args := [.Constant a, .Constant (c.drop a.length), .Constant c] }
    else none
  | "string_concat", [_, .Constant b, .Constant c] =>
    if c.endsWith b then
      some { predicate := l.predicate,
             args := [.Constant (c.dropRight b.length), .Constant b, .Constant c] }
    else none
  | _, _ => none

/-- The per-predicate groundness table computed by the analyzer: for each user
predicate signature, a vector of booleans, `false` at position `i` meaning
"argument i must be ground (a Constant) at call sites that select this
literal" (see the comment in `select`, src/src/sld.rs lines 131-134). -/
abbrev GroundedMap := List ((String × Nat) × List Bool)

/-- First-match lookup of a signature in the groundness table. -/
def lookupGrounded : GroundedMap → (String × Nat) → Option (List Bool)
  | [], _ => none
  | (k, v) :: rest, sig => if k = sig then some v else lookupGrounded rest sig

/-- Modelled from the spec (4.3): whether position `j` of body literal `b` is
ground-producing under the current table (builtins ground all their
positions). -/
def litPosGround (m : GroundedMap) (b : Literal) (j : Nat) : Bool :=
  if b.signature = ("string_concat", 3) then true
  else
    match lookupGrounded m b.signature with
    | some gb => gb.getD j false
    | none => false

/-- Modelled from the spec (4.3): whether variable `v` appears bound to a
ground position of some body literal. -/
def varGroundInBody (m : GroundedMap) (body : List Literal) (v : IRTerm) : Bool :=
  body.any (fun b => b.args.enum.any (fun p => p.2 = v && litPosGround m b p.1))

/-- Modelled from the spec (4.3): whether argument position `i` of clause `c`
is ground-producing — a constant head argument, or a head variable bound to a
ground position of some body literal. -/
def clauseArgGround (m : GroundedMap) (c : Clause) (i : Nat) : Bool :=
  match c.head.args.get? i with
  | some (.Constant _) => true
  | some v => varGroundInBody m c.body v
  | none => false

/-- The distinct head signatures of a rule set. -/
def ruleSignatures (rules : List Clause) : List (String × Nat) :=
  (rules.map (fun c => c.head.signature)).dedup

/-- Modelled from the spec (4.3): one step of the fixed-point groundness
analysis — a position is ground-producing if it is so on every clause defining
the signature. -/
def stepGrounded (rules : List Clause) (m : GroundedMap) : GroundedMap :=
  (ruleSignatures rules).map (fun sig =>
    (sig, (List.range sig.2).map (fun i =>
      (rules.filter (fun c => c.head.signature = sig)).all
        (fun c => clauseArgGround m c i))))

/-- Iterating the analysis step from the all-false table. -/
def iterGrounded (rules : List Clause) : Nat → GroundedMap
  | 0 => (ruleSignatures rules).map (fun sig => (sig, (List.range sig.2).map (fun _ => false)))
  | n + 1 => stepGrounded rules (iterGrounded rules n)

/-- Modelled from the spec (4.3): `wellformed::check_grounded_variables` — the
fixed-point groundness analysis, run for enough steps to stabilise; the spec
says the policy never rejects programs, so the analysis is total. -/
def check_grounded_variables (rules : List Clause) : GroundedMap :=
  iterGrounded rules (rules.foldl (fun a c => a + c.head.args.length) 1)

/-! ## The SLD resolver (src/src/sld.rs) -/

/-- A clause applied during resolution: a user rule by index, the query, or a
builtin with its instantiated literal (src/src/sld.rs lines 44-50). -/
inductive ClauseId where
  | Rule (n : Nat)
  | Query
  | Builtin (l : Literal)
deriving DecidableEq

/-- Origin of a goal literal: the clause and the body index that introduced it
(src/src/sld.rs lines 52-57). -/
structure LiteralOrigin where
  clause : ClauseId
  body_index : Nat
deriving DecidableEq

/-- A goal literal with the tree level at which it was introduced and its
origin (src/src/sld.rs lines 62-68). -/
structure LiteralWithHistory where
  literal : Literal
  introduction : Nat
  origin : LiteralOrigin
deriving DecidableEq

/-- A goal with history (src/src/sld.rs line 69). -/
abbrev GoalWithHistory := List LiteralWithHistory

/-- An SLD tree: the goal it was invoked on, its level, and the mapping from
(selected literal index, applied clause) to (mgu, renaming, subtree)
(src/src/sld.rs lines 71-80); the `HashMap` is embedded as an association
list whose keys are distinct. -/
inductive Tree where
  | node (goal : GoalWithHistory) (level : Nat)
      (resolvents : List ((Nat × ClauseId) × (Substitution × Substitution × Tree)))

/-- The level stored at the root of a tree. -/
def Tree.level : Tree → Nat
  | .node _ l _ => l

/-- The resolvents stored at the root of a tree. -/
def Tree.resolvents : Tree → List ((Nat × ClauseId) × (Substitution × Substitution × Tree))
  | .node _ _ rs => rs

/-- The evaluation of the predicate inside `select`'s `find` closure
(src/src/sld.rs lines 124-153) on one goal literal: `some true` when the
literal is selectable (a builtin `Match`, or a user literal whose
required-ground positions are constants), `some false` when it must be
skipped (grounded entry whose check fails, or a builtin
`GroundnessMismatch`), `none` when the Rust code panics ("Unknown
predicate"). -/
def selectPred (grounded : GroundedMap) (lit : Literal) : Option Bool :=
  if (select_builtin lit).is_match then some true
  else
    match lookupGrounded grounded lit.signature with
    | some gv => some ((lit.args.zip gv).all (fun p => p.2 || p.1.isConstant))
    | none =>
      if select_builtin lit = .GroundnessMismatch then some false
      else none

/-- Result of `select`: the leftmost selectable literal with its index, no
selectable literal, or a panic. -/
inductive SelectResult where
  | found (i : Nat) (l : LiteralWithHistory)
  | nofind
  | fault
deriving DecidableEq

/-- The scan of `select`'s `find` over the goal, carrying the next index. -/
def selectFrom (grounded : GroundedMap) : GoalWithHistory → Nat → SelectResult
  | [], _ => .nofind
  | l :: rest, i =>
    match selectPred grounded l.literal with
    | some true => .found i l
    | some false => selectFrom grounded rest (i + 1)
    | none => .fault

/-- The function `select` (src/src/sld.rs lines 117-155): the leftmost literal
with compatible groundness. -/
def select (goal : GoalWithHistory) (grounded : GroundedMap) : SelectResult :=
  selectFrom grounded goal 0

/-- The function `resolve` (src/src/sld.rs lines 157-185): remove the selected
literal, append the applied rule body tagged with its origin and the
introduction level, and apply the mgu to the whole goal. -/
def resolve (lid : Nat) (rid : ClauseId) (goal : GoalWithHistory)
    (mgu : Substitution) (rule : Clause) (level : Nat) : GoalWithHistory :=
  ((goal.eraseIdx lid) ++
    rule.body.enum.map (fun p =>
      ({ literal := p.2, introduction := level,
         origin := { clause := rid, body_index := p.1 } } : LiteralWithHistory))).map
    (fun lh => { lh with literal := lh.literal.substitute mgu })

/-- The builtin resolvent candidate of `inner` (src/src/sld.rs lines 237-262):
when the dispatcher answers `Match`, the candidate instantiation is computed,
unified with the goal literal, and a single resolvent is produced with a
synthetic builtin clause of empty body. -/
def builtinCandidate (lid : Nat) (l : LiteralWithHistory) (goal : GoalWithHistory)
    (level : Nat) : Option (Literal × Substitution × GoalWithHistory) :=
  match select_builtin l.literal with
  | .Match =>
    (match builtinApply l.literal with
     | some cand =>
       (match cand.unify l.literal with
        | some mgu =>
          some (cand, mgu,
            resolve lid (.Builtin cand) goal mgu { head := cand, body := [] } (level + 1))
        | none => none)
     | none => none)
  | _ => none

mutual

/-- The recursive search `inner` (src/src/sld.rs lines 187-297): the empty
goal is the terminal success (checked before the depth bound); a non-empty
goal at `level >= maxdepth` returns `None`; otherwise the leftmost selectable
literal is expanded against the builtin candidate and every user rule, and
the node succeeds iff at least one resolvent produces a subtree. The panic of
`select` is `Except.error ()`; the aux-variable counter of renaming is
threaded as explicit state. -/
def inner (rules : List Clause) (grounded : GroundedMap) (maxdepth : Nat)
    (goal : GoalWithHistory) (level : Nat) (counter : Nat) :
    Except Unit (Option Tree × Nat) :=
  if goal = [] then
    .ok (some (.node goal level []), counter)
  else if hd : maxdepth ≤ level then
    .ok (none, counter)
  else
    match select goal grounded with
    | .fault => .error ()
    | .nofind => .ok (none, counter)
    | .found lid l =>
      match innerBranches rules grounded maxdepth lid l goal level (by omega) counter with
      | .error e => .error e
      | .ok ([], c2) => .ok (none, c2)
      | .ok (rs, c2) => .ok (some (.node goal level rs), c2)
termination_by (maxdepth - level, rules.length + 2)
decreasing_by
  all_goals apply Prod.Lex.right
  all_goals omega

/-- The collection of successful resolvents at one node: the builtin
candidate's recursion (pulled first from the lazy `chain`) followed by the
user-rule candidates in rule order (src/src/sld.rs lines 237-286); entries
whose recursion returned no subtree are dropped by the `filter_map`. -/
def innerBranches (rules : List Clause) (grounded : GroundedMap) (maxdepth : Nat)
    (lid : Nat) (l : LiteralWithHistory) (goal : GoalWithHistory) (level : Nat)
    (h : level < maxdepth) (counter : Nat) :
    Except Unit (List ((Nat × ClauseId) × (Substitution × Substitution × Tree)) × Nat) :=
  match builtinCandidate lid l goal level with
  | some (cand, mgu, resolvent) =>
    (match inner rules grounded maxdepth resolvent (level + 1) counter with
     | .error e => .error e
     | .ok (ot, c1) =>
       match innerRules rules grounded maxdepth lid l goal rules.enum level h c1 with
       | .error e => .error e
       | .ok (rl, c2) =>
         match ot with
         | some t => .ok (((lid, ClauseId.Builtin cand), (mgu, ([] : Substitution), t)) :: rl, c2)
         | none => .ok (rl, c2))
  | none =>
    innerRules rules grounded maxdepth lid l goal rules.enum level h counter
termination_by (maxdepth - level, rules.length + 1)
decreasing_by
  all_goals simp_wf
  · apply Prod.Lex.left
    omega
  · apply Prod.Lex.right
    simp [List.enum_length]
  · apply Prod.Lex.right
    simp [List.enum_length]

/-- The walk over the enumerated user rules (src/src/sld.rs lines 263-286):
signature-matching rules are renamed (drawing fresh auxiliary variables from
the counter), their heads unified with the selected literal, and each success
is recursed on at `level + 1`; the renaming and the recursion of later rules
happen after the recursion of earlier ones (the Rust iterator chain is
lazy), which the threaded counter mirrors. -/
def innerRules (rules : List Clause) (grounded : GroundedMap) (maxdepth : Nat)
    (lid : Nat) (l : LiteralWithHistory) (goal : GoalWithHistory) :
    List (Nat × Clause) → (level : Nat) → level < maxdepth → Nat →
    Except Unit (List ((Nat × ClauseId) × (Substitution × Substitution × Tree)) × Nat)
  | [], _level, _h, counter => .ok ([], counter)
  | (rid, c) :: rest, level, h, counter =>
    if c.head.signature = l.literal.signature then
      match rename_with_sub c counter with
      | (c2, ren, counter1) =>
        match c2.head.unify l.literal with
        | some mgu =>
          (match inner rules grounded maxdepth
              (resolve lid (.Rule rid) goal mgu c2 (level + 1)) (level + 1) counter1 with
           | .error e => .error e
           | .ok (none, counter2) =>
             innerRules rules grounded maxdepth lid l goal rest level h counter2
           | .ok (some t, counter2) =>
             (match innerRules rules grounded maxdepth lid l goal rest level h counter2 with
              | .error e => .error e
              | .ok (acc, counter3) =>
                .ok (((lid, ClauseId.Rule rid), (mgu, ren, t)) :: acc, counter3)))
        | none => innerRules rules grounded maxdepth lid l goal rest level h counter1
    else
      innerRules rules grounded maxdepth lid l goal rest level h counter
termination_by rem level _h _counter => (maxdepth - level, rem.length)
decreasing_by
  all_goals simp_wf
  all_goals first
    | (apply Prod.Lex.left; omega)
    | (apply Prod.Lex.right; omega)

end

/-- The entry point `sld` (src/src/sld.rs lines 112-317): the groundness table
is computed, the query literals are tagged with the `Query` origin and level
0, and `inner` is run from level 0 (with the aux-variable counter starting at
0); the result keeps only the optional tree. -/
def sld (rules : List Clause) (goal : List Literal) (maxdepth : Nat) :
    Except Unit (Option Tree) :=
  let grounded := check_grounded_variables rules
  let goal_with_history : GoalWithHistory := goal.enum.map (fun p =>
    { literal := p.2, introduction := 0,
      origin := { clause := ClauseId.Query, body_index := p.1 } })
  (inner rules grounded maxdepth goal_with_history 0 0).map (fun r => r.1)

/-! ## The proof walker's deduplication (src/src/sld.rs lines 353-477) -/

/-- A proof node: the applied clause, its valuation, and child proofs
(src/src/sld.rs lines 86-91). -/
inductive Proof where
  | mk (clause : ClauseId) (valuation : Substitution) (children : List Proof)

/-- The valuation of a proof node. -/
def Proof.valuation : Proof → Substitution
  | .mk _ v _ => v

/-- Applying a substitution to a goal (Rust `goal.substitute(&p.valuation)`). -/
def substituteGoal (goal : List Literal) (s : Substitution) : List Literal :=
  goal.map (fun l => l.substitute s)

/-- The deduplication loop at the end of `proofs` (src/src/sld.rs lines
466-476): proofs are kept in path-discovery order, and a proof whose solution
(the query goal under the proof's valuation) equals the solution of an
already-emitted proof is dropped; `computed` is the set of already-emitted
solutions. -/
def dedupProofsLoop (goal : List Literal) :
    List Proof → List (List Literal) → List Proof
  | [], _ => []
  | p :: rest, computed =>
    if substituteGoal goal p.valuation ∈ computed then
      dedupProofsLoop goal rest computed
    else
      p :: dedupProofsLoop goal rest (substituteGoal goal p.valuation :: computed)

/-! ## Auxiliary notions for the statements -/

/-- A goal literal is selectable, in the sense of the spec's selection rule:
it is a builtin the dispatcher reports as `Match`, or a user literal with a
groundness entry all of whose required-ground argument positions
(`grounded[i] == false`) hold Constants. -/
def qualifies (grounded : GroundedMap) (lit : Literal) : Prop :=
  select_builtin lit = .Match ∨
  ∃ gv, lookupGrounded grounded lit.signature = some gv ∧
    ∀ p ∈ lit.args.zip gv, p.2 = true ∨ p.1.isConstant = true

/-- Reflexive-transitive reachability of a subtree inside an SLD tree through
the resolvent entries. -/
inductive SubtreeOf : Tree → Tree → Prop
  | refl (t : Tree) : SubtreeOf t t
  | child {u : Tree} {g : GoalWithHistory} {lv : Nat}
      {rs : List ((Nat × ClauseId) × (Substitution × Substitution × Tree))}
      (entry : (Nat × ClauseId) × (Substitution × Substitution × Tree))
      (hmem : entry ∈ rs) (hsub : SubtreeOf u entry.2.2.2) :
      SubtreeOf u (Tree.node g lv rs)

/-- A zero-argument literal named `foo`, for the concrete scenarios. -/
def fooL : Literal := { predicate := "foo", args := [] }

/-- A zero-argument literal named `a`, for the concrete scenarios. -/
def aL : Literal := { predicate := "a", args := [] }

/-- A zero-argument literal named `b`, for the concrete scenarios. -/
def bL : Literal := { predicate := "b", args := [] }

/-- A zero-argument literal named `c`, for the concrete scenarios. -/
def cL : Literal := { predicate := "c", args := [] }

/-- A goal literal whose predicate is neither a builtin nor defined by any
rule, for the undefined-predicate scenario. -/
def undefLit : LiteralWithHistory :=
  { literal := { predicate := "undefined_pred", args := [] },
    introduction := 0,
    origin := { clause := .Query, body_index := 0 } }

/-! ## Theorems about the translator -/

/-- Translating a conjunction list all of whose elements are literals emits no
auxiliary clause and keeps the literals in order. -/
theorem conjGo_literals : ∀ (ls : List Literal) (k : Nat),
    conjGo (ls.map .Literal) k = ([], ls, k) := by
  intro ls
  induction ls with
  | nil => intro k; simp [conjGo]
  | cons l rest ih => intro k; simp [conjGo, ih]

/-- C6. The surface-to-IR translation is the identity on pure Horn clauses:
a fact body (`None`) becomes the single bodyless clause, a single-literal
body becomes the single one-literal clause, and a conjunction list of plain
literals becomes the single clause with that body, in order — in each case
with no auxiliary predicate and an unchanged counter. -/
theorem c6_horn_identity : ∀ (head : Literal) (k : Nat),
    toClauses head none k = ([{ head := head, body := [] }], k)
    ∧ (∀ l : Literal, toClauses head (some (.Literal l)) k = ([{ head := head, body := [l] }], k))
    ∧ (∀ ls : List Literal,
        toClauses head (some (.ConjunctionList (ls.map .Literal))) k
          = ([{ head := head, body := ls }], k)) := by
  intro head k
  refine ⟨by simp [toClauses], fun l => by simp [toClauses], fun ls => ?_⟩
  simp [toClauses, conjGo_literals]

/-- C7. The translator ignores an operator application: translating a body
`OperatorApplication(E, op)` produces exactly the clauses of translating `E`,
from the same counter state. -/
theorem c7_operator_dropped : ∀ (head : Literal) (e : Expression) (op : Literal) (k : Nat),
    toClauses head (some (.OperatorApplication e op)) k = toClauses head (some e) k := by
  intro head e op k
  simp only [toClauses]

/-- C2 counterexample. Translating the surface clause `foo :- (a,b); c.`
(body: a disjunction of the conjunction `(a, b)` and the literal `c`) does
not yield the two clauses `foo :- a, b.` and `foo :- c.`: the conjunction
disjunct is not a literal, so the `DisjunctionList` arm introduces the fresh
auxiliary `__replaced0` and emits three clauses. -/
theorem c2_counterexample :
    (toClauses fooL
        (some (.DisjunctionList [.ConjunctionList [.Literal aL, .Literal bL], .Literal cL])) 0)
      = ([{ head := fooL, body := [mkReplaced 0] },
          { head := mkReplaced 0, body := [aL, bL] },
          { head := fooL, body := [cL] }], 1)
    ∧ ([{ head := fooL, body := [mkReplaced 0] },
        { head := mkReplaced 0, body := [aL, bL] },
        { head := fooL, body := [cL] }] : List Clause)
      ≠ [{ head := fooL, body := [aL, bL] }, { head := fooL, body := [cL] }] := by
  constructor
  · simp [toClauses, disjGo, conjGo, fetchAdd, U32SIZE]
  · decide

/-- C2 amended. Translating the surface clause `foo :- (a,b); c.` yields
exactly three Horn clauses: `foo :- __replacedN.`, `__replacedN :- a, b.` and
`foo :- c.`, where `N` is the value drawn from the fresh-predicate counter —
an auxiliary predicate is introduced for the conjunction branch. -/
theorem c2_disjunction_lowering : ∀ (head a b c : Literal) (k : Nat),
    toClauses head
        (some (.DisjunctionList [.ConjunctionList [.Literal a, .Literal b], .Literal c])) k
      = ([{ head := head, body := [mkReplaced ((fetchAdd k).1)] },
          { head := mkReplaced ((fetchAdd k).1), body := [a, b] },
          { head := head, body := [c] }], (fetchAdd k).2) := by
  intro head a b c k
  simp [toClauses, disjGo, conjGo, fetchAdd]

/-- C8 counterexample. The fresh-auxiliary-predicate counter does wrap
silently: at the `u32` maximum, `fetch_add` returns the maximum and stores 0,
so the next draw yields 0 — the draws are not strictly increasing and no
fault is raised; in particular the translator itself, run at the maximal
counter state, returns normally with the counter wrapped to 0. -/
theorem c8_counterexample :
    (fetchAdd (U32SIZE - 1)).1 = U32SIZE - 1
    ∧ (fetchAdd (U32SIZE - 1)).2 = 0
    ∧ (fetchAdd ((fetchAdd (U32SIZE - 1)).2)).1 = 0
    ∧ ¬ ((fetchAdd (U32SIZE - 1)).1 < (fetchAdd ((fetchAdd (U32SIZE - 1)).2)).1)
    ∧ (toClauses fooL
        (some (.DisjunctionList [.ConjunctionList [.Literal aL, .Literal bL], .Literal cL]))
        (U32SIZE - 1)).2 = 0 := by
  refine ⟨rfl, by norm_num [fetchAdd, U32SIZE], by norm_num [fetchAdd, U32SIZE],
    by norm_num [fetchAdd, U32SIZE], ?_⟩
  simp [toClauses, disjGo, conjGo, fetchAdd, U32SIZE]

/-- C8 amended. The translator's counter never decrements and successive
draws are strictly increasing as long as the counter stays below the `u32`
maximum; on reaching the maximum, `fetch_add` silently wraps the stored value
to 0 instead of raising a fault. -/
theorem c8_counter_monotone : ∀ k : Nat, k + 1 < U32SIZE →
    (fetchAdd k).1 = k
    ∧ (fetchAdd k).2 = k + 1
    ∧ (fetchAdd k).1 < (fetchAdd ((fetchAdd k).2)).1
    ∧ (fetchAdd (U32SIZE - 1)).2 = 0 := by
  intro k hk
  have h2 : (k + 1) % U32SIZE = k + 1 := Nat.mod_eq_of_lt hk
  refine ⟨rfl, h2, ?_, by norm_num [fetchAdd, U32SIZE]⟩
  simp only [fetchAdd, h2]
  omega

/-- Witness for the amended C8 statement at the concrete counter state 5. -/
theorem c8_counter_monotone_witness :
    (fetchAdd 5).1 = 5
    ∧ (fetchAdd 5).2 = 5 + 1
    ∧ (fetchAdd 5).1 < (fetchAdd ((fetchAdd 5).2)).1
    ∧ (fetchAdd (U32SIZE - 1)).2 = 0 :=
  c8_counter_monotone 5 (by norm_num [U32SIZE])

/-! ## Theorems about the proof deduplication -/

/-- The deduplication loop keeps a subsequence of the discovered proofs. -/
theorem dedup_sublist (goal : List Literal) :
    ∀ (l : List Proof) (computed : List (List Literal)),
      (dedupProofsLoop goal l computed).Sublist l := by
  intro l
  induction l with
  | nil => intro computed; simp [dedupProofsLoop]
  | cons p rest ih =>
    intro computed
    by_cases h : substituteGoal goal p.valuation ∈ computed
    · rw [dedupProofsLoop, if_pos h]
      exact (ih computed).cons p
    · rw [dedupProofsLoop, if_neg h]
      exact (ih _).cons₂ p

/-- No emitted proof has a solution that was already in the `computed` set the
loop started from. -/
theorem dedup_not_computed (goal : List Literal) :
    ∀ (l : List Proof) (computed : List (List Literal)) (q : Proof),
      q ∈ dedupProofsLoop goal l computed →
      substituteGoal goal q.valuation ∉ computed := by
  intro l
  induction l with
  | nil => intro computed q hq; simp [dedupProofsLoop] at hq
  | cons p rest ih =>
    intro computed q hq
    by_cases h : substituteGoal goal p.valuation ∈ computed
    · rw [dedupProofsLoop, if_pos h] at hq
      exact ih computed q hq
    · rw [dedupProofsLoop, if_neg h] at hq
      rcases List.mem_cons.mp hq with rfl | hq2
      · exact h
      · have := ih _ q hq2
        intro hc
        exact this (List.mem_cons_of_mem _ hc)

/-- The emitted proofs have pairwise distinct solutions. -/
theorem dedup_pairwise (goal : List Literal) :
    ∀ (l : List Proof) (computed : List (List Literal)),
      (dedupProofsLoop goal l computed).Pairwise
        (fun p q => substituteGoal goal p.valuation ≠ substituteGoal goal q.valuation) := by
  intro l
  induction l with
  | nil => intro computed; simp [dedupProofsLoop]
  | cons p rest ih =>
    intro computed
    by_cases h : substituteGoal goal p.valuation ∈ computed
    · rw [dedupProofsLoop, if_pos h]
      exact ih computed
    · rw [dedupProofsLoop, if_neg h]
      refine List.Pairwise.cons ?_ (ih _)
      intro q hq heq
      have := dedup_not_computed goal rest _ q hq
      exact this (heq ▸ List.mem_cons_self _ _)

/-- Every discovered proof's solution is either in the starting `computed` set
or is the solution of some emitted proof. -/
theorem dedup_covers (goal : List Literal) :
    ∀ (l : List Proof) (computed : List (List Literal)) (p : Proof), p ∈ l →
      substituteGoal goal p.valuation ∈ computed ∨
      ∃ q ∈ dedupProofsLoop goal l computed,
        substituteGoal goal q.valuation = substituteGoal goal p.valuation := by
  intro l
  induction l with
  | nil => intro computed p hp; simp at hp
  | cons hd rest ih =>
    intro computed p hp
    by_cases h : substituteGoal goal hd.valuation ∈ computed
    · rw [dedupProofsLoop, if_pos h]
      rcases List.mem_cons.mp hp with heq | hp2
      · exact Or.inl (heq ▸ h)
      · exact ih computed p hp2
    · rw [dedupProofsLoop, if_neg h]
      rcases List.mem_cons.mp hp with heq | hp2
      · exact Or.inr ⟨hd, List.mem_cons_self _ _, by rw [heq]⟩
      · rcases ih (substituteGoal goal hd.valuation :: computed) p hp2 with hin | ⟨q, hq, hqe⟩
        · rcases List.mem_cons.mp hin with heq | hin2
          · exact Or.inr ⟨hd, List.mem_cons_self _ _, heq.symm⟩
          · exact Or.inl hin2
        · exact Or.inr ⟨q, List.mem_cons_of_mem _ hq, hqe⟩

/-- C5. The `proofs` deduplication emits at most one proof per distinct
solution: the emitted proofs are a subsequence of the discovered proofs
(path-discovery order), their solutions (the query goal under each proof's
valuation) are pairwise distinct, and every discovered proof's solution is
the solution of some emitted proof (so a dropped proof duplicates an emitted
solution). -/
theorem c5_dedup_by_solution : ∀ (goal : List Literal) (all : List Proof),
    (dedupProofsLoop goal all []).Sublist all
    ∧ (dedupProofsLoop goal all []).Pairwise
        (fun p q => substituteGoal goal p.valuation ≠ substituteGoal goal q.valuation)
    ∧ ∀ p ∈ all, ∃ q ∈ dedupProofsLoop goal all [],
        substituteGoal goal q.valuation = substituteGoal goal p.valuation := by
  intro goal all
  refine ⟨dedup_sublist goal all [], dedup_pairwise goal all [], ?_⟩
  intro p hp
  rcases dedup_covers goal all [] p hp with hin | h
  · simp at hin
  · exact h

/-! ## Theorems about literal selection and the resolver -/

/-- A dispatcher answer is `Match` exactly when `is_match` holds. -/
theorem is_match_iff (r : SelectBuiltinResult) : r.is_match = true ↔ r = .Match := by
  cases r <;> simp [SelectBuiltinResult.is_match]

/-- A literal on which the selection predicate answers `some true` is exactly
a qualifying literal: a builtin `Match`, or a user literal whose
required-ground positions hold Constants. -/
theorem selectPred_true_iff (grounded : GroundedMap) (lit : Literal) :
    selectPred grounded lit = some true ↔ qualifies grounded lit := by
  unfold selectPred qualifies
  by_cases hm : (select_builtin lit).is_match = true
  · rw [if_pos hm]
    exact ⟨fun _ => Or.inl ((is_match_iff _).mp hm), fun _ => rfl⟩
  · have hNotMatch : select_builtin lit ≠ .Match := fun h => hm ((is_match_iff _).mpr h)
    rw [if_neg hm]
    cases hg : lookupGrounded grounded lit.signature with
    | some gv =>
      simp only [Option.some.injEq, hNotMatch, false_or]
      constructor
      · intro hall
        refine ⟨gv, rfl, ?_⟩
        intro p hp
        have := (List.all_eq_true.mp hall) p hp
        rcases Bool.or_eq_true_iff.mp this with h1 | h1
        · exact Or.inl h1
        · exact Or.inr h1
      · rintro ⟨gv2, hgv2, hall⟩
        cases hgv2
        refine List.all_eq_true.mpr ?_
        intro p hp
        rcases hall p hp with h1 | h1
        · exact Bool.or_eq_true_iff.mpr (Or.inl h1)
        · exact Bool.or_eq_true_iff.mpr (Or.inr h1)
    | none =>
      constructor
      · intro h
        by_cases hmm : select_builtin lit = .GroundnessMismatch <;> simp [hmm] at h
      · rintro (h | ⟨gv2, hgv2, _⟩)
        · exact absurd h hNotMatch
        · cases hgv2

/-- A literal on which the selection predicate answers `some false` does not
qualify. -/
theorem selectPred_false_not_qualifies (grounded : GroundedMap) (lit : Literal) :
    selectPred grounded lit = some false → ¬ qualifies grounded lit := by
  intro hf hq
  have := (selectPred_true_iff grounded lit).mpr hq
  rw [hf] at this
  cases this

/-- The scan of `select` returns the leftmost literal on which the selection
predicate answers `some true`; all earlier literals answered `some false`. -/
theorem selectFrom_found (grounded : GroundedMap) :
    ∀ (goal : GoalWithHistory) (k i : Nat) (l : LiteralWithHistory),
      selectFrom grounded goal k = .found i l →
      k ≤ i ∧ goal[i - k]? = some l ∧ selectPred grounded l.literal = some true ∧
        ∀ j, j < i - k → ∀ lj, goal[j]? = some lj →
          selectPred grounded lj.literal = some false := by
  intro goal
  induction goal with
  | nil => intro k i l h; simp [selectFrom] at h
  | cons hd rest ih =>
    intro k i l h
    rw [selectFrom] at h
    cases hsp : selectPred grounded hd.literal with
    | none => rw [hsp] at h; cases h
    | some b =>
      cases b with
      | true =>
        rw [hsp] at h
        cases h
        refine ⟨Nat.le_refl _, ?_, hsp, ?_⟩
        · simp
        · intro j hj; omega
      | false =>
        rw [hsp] at h
        have := ih (k + 1) i l h
        rcases this with ⟨hki, hget, htrue, hprev⟩
        refine ⟨by omega, ?_, htrue, ?_⟩
        · have hik : i - k = (i - (k + 1)) + 1 := by omega
          rw [hik]
          simpa using hget
        · intro j hj lj hlj
          cases j with
          | zero =>
            simp at hlj
            rw [← hlj]
            exact hsp
          | succ j2 =>
            simp at hlj
            exact hprev j2 (by omega) lj hlj

/-- The scan of `select` panics when it reaches a literal on which the
selection predicate panics, all earlier literals having answered
`some false`. -/
theorem selectFrom_fault (grounded : GroundedMap) :
    ∀ (goal : GoalWithHistory) (k i : Nat) (li : LiteralWithHistory),
      goal[i]? = some li →
      (∀ j, j < i → ∀ lj, goal[j]? = some lj →
        selectPred grounded lj.literal = some false) →
      selectPred grounded li.literal = none →
      selectFrom grounded goal k = .fault := by
  intro goal
  induction goal with
  | nil => intro k i li hget; simp at hget
  | cons hd rest ih =>
    intro k i li hget hprev hnone
    cases i with
    | zero =>
      simp at hget
      rw [selectFrom, hget, hnone]
    | succ i2 =>
      have hhd : selectPred grounded hd.literal = some false := by
        refine hprev 0 (by omega) hd ?_
        simp
      rw [selectFrom, hhd]
      refine ih (k + 1) i2 li ?_ ?_ hnone
      · simpa using hget
      · intro j hj lj hlj
        refine hprev (j + 1) (by omega) lj ?_
        simpa using hlj

/-- The empty goal is the terminal success of `inner`, checked before the
depth bound. -/
theorem inner_empty (rules : List Clause) (grounded : GroundedMap)
    (maxdepth level counter : Nat) :
    inner rules grounded maxdepth [] level counter
      = .ok (some (.node [] level []), counter) := by
  rw [inner.eq_def]
  simp

/-- A non-empty goal at a level at or beyond the depth bound yields no
subtree. -/
theorem inner_depth (rules : List Clause) (grounded : GroundedMap)
    (maxdepth : Nat) (goal : GoalWithHistory) (level counter : Nat)
    (hg : goal ≠ []) (hd : maxdepth ≤ level) :
    inner rules grounded maxdepth goal level counter = .ok (none, counter) := by
  rw [inner.eq_def]
  rw [if_neg hg, dif_pos hd]

/-- When no literal of a non-empty goal is selectable, the branch fails with
no solution (and no error). -/
theorem inner_nofind (rules : List Clause) (grounded : GroundedMap)
    (maxdepth : Nat) (goal : GoalWithHistory) (level counter : Nat)
    (hg : goal ≠ []) (hlt : level < maxdepth)
    (hsel : select goal grounded = .nofind) :
    inner rules grounded maxdepth goal level counter = .ok (none, counter) := by
  rw [inner.eq_def]
  rw [if_neg hg, dif_neg (by omega)]
  rw [hsel]

/-- When the selection scan panics, `inner` propagates the panic. -/
theorem inner_fault (rules : List Clause) (grounded : GroundedMap)
    (maxdepth : Nat) (goal : GoalWithHistory) (level counter : Nat)
    (hg : goal ≠ []) (hlt : level < maxdepth)
    (hsel : select goal grounded = .fault) :
    inner rules grounded maxdepth goal level counter = .error () := by
  rw [inner.eq_def]
  rw [if_neg hg, dif_neg (by omega)]
  rw [hsel]

/-- The expansion step of `inner` on a selected literal, in terms of the
collected resolvents. -/
theorem inner_found (rules : List Clause) (grounded : GroundedMap)
    (maxdepth : Nat) (goal : GoalWithHistory) (level counter : Nat)
    (lid : Nat) (l : LiteralWithHistory)
    (hg : goal ≠ []) (hlt : level < maxdepth)
    (hsel : select goal grounded = .found lid l) :
    inner rules grounded maxdepth goal level counter
      = match innerBranches rules grounded maxdepth lid l goal level hlt counter with
        | .error e => .error e
        | .ok ([], c2) => .ok (none, c2)
        | .ok (rs, c2) => .ok (some (.node goal level rs), c2) := by
  rw [inner.eq_def]
  rw [if_neg hg, dif_neg (by omega)]
  rw [hsel]

/-- C1. The resolver selects the leftmost literal of a non-empty goal that
qualifies (a builtin reported as `Match`, or a user-defined literal all of
whose required-ground argument positions — `grounded[i] == false` — hold
Constants): a `found` result points at a qualifying literal all of whose
predecessors do not qualify; and when no literal qualifies, the branch
returns no solution (`Except.ok` with `none`), not an error. -/
theorem c1_leftmost_selection : ∀ (grounded : GroundedMap) (goal : GoalWithHistory),
    (∀ i l, select goal grounded = .found i l →
      goal[i]? = some l ∧ qualifies grounded l.literal ∧
        ∀ j, j < i → ∀ lj, goal[j]? = some lj → ¬ qualifies grounded lj.literal)
    ∧ (select goal grounded = .nofind →
        ∀ (rules : List Clause) (maxdepth level counter : Nat),
          goal ≠ [] → level < maxdepth →
          inner rules grounded maxdepth goal level counter = .ok (none, counter)) := by
  intro grounded goal
  constructor
  · intro i l h
    have := selectFrom_found grounded goal 0 i l h
    rcases this with ⟨_, hget, htrue, hprev⟩
    rw [Nat.sub_zero] at hget hprev
    refine ⟨hget, (selectPred_true_iff grounded l.literal).mp htrue, ?_⟩
    intro j hj lj hlj
    exact selectPred_false_not_qualifies grounded lj.literal (hprev j hj lj hlj)
  · intro hsel rules maxdepth level counter hg hlt
    exact inner_nofind rules grounded maxdepth goal level counter hg hlt hsel

/-- C4. A goal literal whose predicate signature has no groundness entry and
is not a builtin (the dispatcher reports `NoMatch`, neither `Match` nor
`GroundnessMismatch`) makes the selection scan panic when it examines it
(every earlier literal having been skipped), and the search aborts with the
hard fault `Except.error ()` instead of treating the branch as failed. -/
theorem c4_undefined_predicate_panics :
    ∀ (grounded : GroundedMap) (goal : GoalWithHistory) (i : Nat)
      (li : LiteralWithHistory) (rules : List Clause) (maxdepth level counter : Nat),
      goal[i]? = some li →
      (∀ j, j < i → ∀ lj, goal[j]? = some lj →
        selectPred grounded lj.literal = some false) →
      lookupGrounded grounded li.literal.signature = none →
      select_builtin li.literal = .NoMatch →
      level < maxdepth →
      select goal grounded = .fault ∧
      inner rules grounded maxdepth goal level counter = .error () := by
  intro grounded goal i li rules maxdepth level counter hget hprev hlk hnb hlt
  have hnone : selectPred grounded li.literal = none := by
    unfold selectPred
    rw [hnb]
    simp [SelectBuiltinResult.is_match, hlk]
  have hg : goal ≠ [] := by
    intro h
    subst h
    simp at hget
  have hsel : select goal grounded = .fault :=
    selectFrom_fault grounded goal 0 i li hget hprev hnone
  exact ⟨hsel, inner_fault rules grounded maxdepth goal level counter hg hlt hsel⟩

/-- Witness for C4: querying the undefined zero-argument predicate
`undefined_pred` under an empty rule set panics the selection and aborts the
search. -/
theorem c4_undefined_predicate_witness :
    select [undefLit] [] = .fault
    ∧ inner [] [] 1 [undefLit] 0 0 = .error () :=
  c4_undefined_predicate_panics [] [undefLit] 0 undefLit [] 1 0 0
    (by simp)
    (fun j hj => absurd hj (Nat.not_lt_zero j))
    rfl
    (by decide)
    (by omega)

/-- C10. An empty query goal succeeds for every rule set and every depth
bound, including `maxdepth = 0`: the empty-goal success check of `inner`
precedes the depth check, so `sld` returns the empty-goal success node with
no resolvents. -/
theorem c10_empty_goal_succeeds : ∀ (rules : List Clause) (maxdepth : Nat),
    sld rules [] maxdepth = .ok (some (.node [] 0 [])) := by
  intro rules maxdepth
  unfold sld
  simp [inner_empty, Except.map]

/-- Every resolvent entry collected by the rule walk carries a subtree that
some recursive `inner` call at `level + 1` returned. -/
theorem innerRules_mem_tree (rules : List Clause) (grounded : GroundedMap)
    (maxdepth : Nat) (lid : Nat) (l : LiteralWithHistory) (goal : GoalWithHistory) :
    ∀ (rem : List (Nat × Clause)) (level : Nat) (h : level < maxdepth)
      (counter : Nat) (lst : List ((Nat × ClauseId) × (Substitution × Substitution × Tree)))
      (c' : Nat),
      innerRules rules grounded maxdepth lid l goal rem level h counter = .ok (lst, c') →
      ∀ e ∈ lst, ∃ g2 k1 k2,
        inner rules grounded maxdepth g2 (level + 1) k1 = .ok (some e.2.2.2, k2) := by
  intro rem
  induction rem with
  | nil =>
    intro level h counter lst c' heq e he
    rw [innerRules.eq_def] at heq
    simp only [] at heq
    cases heq
    simp at he
  | cons pc rest ih =>
    intro level h counter lst c' heq e he
    obtain ⟨rid, c⟩ := pc
    rw [innerRules.eq_def] at heq
    simp only [] at heq
    by_cases hsig : c.head.signature = l.literal.signature
    · rw [if_pos hsig] at heq
      rcases hrw : rename_with_sub c counter with ⟨c2, ren, counter1⟩
      rw [hrw] at heq
      cases hu : Literal.unify c2.head l.literal with
      | some mgu =>
        rw [hu] at heq
        simp only [] at heq
        cases hin : inner rules grounded maxdepth
            (resolve lid (ClauseId.Rule rid) goal mgu c2 (level + 1)) (level + 1) counter1 with
        | error e1 => rw [hin] at heq; cases heq
        | ok p =>
          obtain ⟨ot, counter2⟩ := p
          rw [hin] at heq
          cases ot with
          | none =>
            simp only [] at heq
            exact ih level h counter2 lst c' heq e he
          | some t =>
            simp only [] at heq
            cases hrec : innerRules rules grounded maxdepth lid l goal rest level h counter2 with
            | error e2 => rw [hrec] at heq; cases heq
            | ok q =>
              obtain ⟨acc, counter3⟩ := q
              rw [hrec] at heq
              simp only [] at heq
              cases heq
              rcases List.mem_cons.mp he with heq2 | he2
              · subst heq2
                exact ⟨_, counter1, counter2, hin⟩
              · exact ih level h counter2 acc _ hrec e he2
      | none =>
        rw [hu] at heq
        simp only [] at heq
        exact ih level h counter1 lst c' heq e he
    · rw [if_neg hsig] at heq
      exact ih level h counter lst c' heq e he

/-- Every resolvent entry collected at a node (builtin and user rules alike)
carries a subtree that some recursive `inner` call at `level + 1` returned. -/
theorem innerBranches_mem_tree (rules : List Clause) (grounded : GroundedMap)
    (maxdepth : Nat) (lid : Nat) (l : LiteralWithHistory) (goal : GoalWithHistory)
    (level : Nat) (h : level < maxdepth) (counter : Nat)
    (lst : List ((Nat × ClauseId) × (Substitution × Substitution × Tree))) (c' : Nat) :
    innerBranches rules grounded maxdepth lid l goal level h counter = .ok (lst, c') →
    ∀ e ∈ lst, ∃ g2 k1 k2,
      inner rules grounded maxdepth g2 (level + 1) k1 = .ok (some e.2.2.2, k2) := by
  intro heq e he
  rw [innerBranches.eq_def] at heq
  cases hbc : builtinCandidate lid l goal level with
  | none =>
    rw [hbc] at heq
    exact innerRules_mem_tree rules grounded maxdepth lid l goal rules.enum level h counter
      lst c' heq e he
  | some trip =>
    obtain ⟨cand, mgu, resolvent⟩ := trip
    rw [hbc] at heq
    simp only [] at heq
    cases hin : inner rules grounded maxdepth resolvent (level + 1) counter with
    | error e1 => rw [hin] at heq; cases heq
    | ok p =>
      obtain ⟨ot, c1⟩ := p
      rw [hin] at heq
      simp only [] at heq
      cases hrl : innerRules rules grounded maxdepth lid l goal rules.enum level h c1 with
      | error e2 => rw [hrl] at heq; cases heq
      | ok q =>
        obtain ⟨rl, c2⟩ := q
        rw [hrl] at heq
        simp only [] at heq
        cases ot with
        | none =>
          simp only [] at heq
          cases heq
          exact innerRules_mem_tree rules grounded maxdepth lid l goal rules.enum level h c1
            lst c' hrl e he
        | some t =>
          simp only [] at heq
          cases heq
          rcases List.mem_cons.mp he with heq2 | he2
          · subst heq2
            exact ⟨resolvent, counter, c1, hin⟩
          · exact innerRules_mem_tree rules grounded maxdepth lid l goal rules.enum level h c1
              rl _ hrl e he2

/-- Every node of a tree returned by `inner`, called at a level within the
bound, sits at a level at most `maxdepth`: each recursive call increases the
level by 1 and a non-empty goal at the bound is cut off. -/
theorem tree_levels_le : ∀ (n : Nat) (rules : List Clause) (grounded : GroundedMap)
    (maxdepth : Nat) (goal : GoalWithHistory) (level counter : Nat) (t : Tree) (c' : Nat),
    maxdepth - level ≤ n → level ≤ maxdepth →
    inner rules grounded maxdepth goal level counter = .ok (some t, c') →
    ∀ u, SubtreeOf u t → u.level ≤ maxdepth := by
  intro n
  induction n with
  | zero =>
    intro rules grounded maxdepth goal level counter t c' hn hle hinner u hsub
    by_cases hg : goal = []
    · subst hg
      rw [inner_empty] at hinner
      cases hinner
      cases hsub with
      | refl => simpa [Tree.level] using hle
      | child entry hmem hs => simp at hmem
    · have hdl : maxdepth ≤ level := by omega
      rw [inner_depth rules grounded maxdepth goal level counter hg hdl] at hinner
      cases hinner
  | succ n ih =>
    intro rules grounded maxdepth goal level counter t c' hn hle hinner u hsub
    by_cases hg : goal = []
    · subst hg
      rw [inner_empty] at hinner
      cases hinner
      cases hsub with
      | refl => simpa [Tree.level] using hle
      | child entry hmem hs => simp at hmem
    · by_cases hdl : maxdepth ≤ level
      · rw [inner_depth rules grounded maxdepth goal level counter hg hdl] at hinner
        cases hinner
      · have hlt : level < maxdepth := by omega
        cases hsel : select goal grounded with
        | fault =>
          rw [inner_fault rules grounded maxdepth goal level counter hg hlt hsel] at hinner
          cases hinner
        | nofind =>
          rw [inner_nofind rules grounded maxdepth goal level counter hg hlt hsel] at hinner
          cases hinner
        | found lid l =>
          rw [inner_found rules grounded maxdepth goal level counter lid l hg hlt hsel] at hinner
          cases hbr : innerBranches rules grounded maxdepth lid l goal level hlt counter with
          | error e1 => rw [hbr] at hinner; cases hinner
          | ok p =>
            obtain ⟨lst, c2⟩ := p
            rw [hbr] at hinner
            cases lst with
            | nil => cases hinner
            | cons x xs =>
              cases hinner
              cases hsub with
              | refl => simpa [Tree.level] using Nat.le_of_lt hlt
              | child entry hmem hs =>
                obtain ⟨g2, k1, k2, hin2⟩ :=
                  innerBranches_mem_tree rules grounded maxdepth lid l goal level hlt counter
                    (x :: xs) _ hbr entry hmem
                exact ih rules grounded maxdepth g2 (level + 1) k1 entry.2.2.2 k2
                  (by omega) (by omega) hin2 u hs

/-- C3. The search is bounded strictly by `maxdepth`: a non-empty goal at
`level ≥ maxdepth` returns `none` at once; every node of a returned tree sits
at a level at most `maxdepth` (each recursive call increases the level by 1);
and a branch returns `none` exactly when the goal is non-empty and either the
depth bound was hit, or no literal was selectable, or every resolvent's
recursion dead-ended (the collected resolvent list is empty). The search
itself always terminates: `inner` is total by well-founded recursion on
`maxdepth - level`. -/
theorem c3_depth_bounded_termination : ∀ (rules : List Clause) (grounded : GroundedMap)
    (maxdepth : Nat) (goal : GoalWithHistory) (level counter : Nat),
    (goal ≠ [] → maxdepth ≤ level →
      inner rules grounded maxdepth goal level counter = .ok (none, counter))
    ∧ (∀ t c', level ≤ maxdepth →
        inner rules grounded maxdepth goal level counter = .ok (some t, c') →
        ∀ u, SubtreeOf u t → u.level ≤ maxdepth)
    ∧ (∀ c', inner rules grounded maxdepth goal level counter = .ok (none, c') ↔
        goal ≠ [] ∧
          ((maxdepth ≤ level ∧ c' = counter) ∨
           (level < maxdepth ∧ select goal grounded = .nofind ∧ c' = counter) ∨
           (∃ (hlt : level < maxdepth) (lid : Nat) (l : LiteralWithHistory),
             select goal grounded = .found lid l ∧
             innerBranches rules grounded maxdepth lid l goal level hlt counter
               = .ok ([], c')))) := by
  intro rules grounded maxdepth goal level counter
  refine ⟨?_, ?_, ?_⟩
  · intro hg hdl
    exact inner_depth rules grounded maxdepth goal level counter hg hdl
  · intro t c' hle hinner
    exact tree_levels_le (maxdepth - level) rules grounded maxdepth goal level counter t c'
      (Nat.le_refl _) hle hinner
  · intro c'
    constructor
    · intro heq
      by_cases hg : goal = []
      · subst hg
        rw [inner_empty] at heq
        cases heq
      · refine ⟨hg, ?_⟩
        by_cases hdl : maxdepth ≤ level
        · rw [inner_depth rules grounded maxdepth goal level counter hg hdl] at heq
          cases heq
          exact Or.inl ⟨hdl, rfl⟩
        · have hlt : level < maxdepth := by omega
          cases hsel : select goal grounded with
          | fault =>
            rw [inner_fault rules grounded maxdepth goal level counter hg hlt hsel] at heq
            cases heq
          | nofind =>
            rw [inner_nofind rules grounded maxdepth goal level counter hg hlt hsel] at heq
            cases heq
            exact Or.inr (Or.inl ⟨hlt, rfl, rfl⟩)
          | found lid l =>
            rw [inner_found rules grounded maxdepth goal level counter lid l hg hlt hsel] at heq
            cases hbr : innerBranches rules grounded maxdepth lid l goal level hlt counter with
            | error e1 => rw [hbr] at heq; cases heq
            | ok p =>
              obtain ⟨lst, c2⟩ := p
              rw [hbr] at heq
              cases lst with
              | nil =>
                cases heq
                exact Or.inr (Or.inr ⟨hlt, lid, l, rfl, hbr⟩)
              | cons x xs => cases heq
    · rintro ⟨hg, hcase⟩
      rcases hcase with ⟨hdl, rfl⟩ | ⟨hlt, hsel, rfl⟩ | ⟨hlt, lid, l, hsel, hbr⟩
      · exact inner_depth rules grounded maxdepth goal level _ hg hdl
      · exact inner_nofind rules grounded maxdepth goal level _ hg hlt hsel
      · rw [inner_found rules grounded maxdepth goal level counter lid l hg hlt hsel]
        rw [hbr]

/-! ## Theorems about the escape processing and the parser -/

/-- The escape processing panics exactly on the inputs whose scan ends at a
backslash that begins an escape sequence with no following character. -/
theorem process_raw_string_none_iff : ∀ s : List Char,
    process_raw_string s = none ↔ dangling s = true := by
  intro s
  induction s using process_raw_string.induct with
  | case1 => simp [process_raw_string, dangling]
  | case2 => simp [process_raw_string, dangling]
  | case3 rest2 ih => simp [process_raw_string, dangling, Option.map_eq_none', ih]
  | case4 rest2 ih => simp [process_raw_string, dangling, Option.map_eq_none', ih]
  | case5 rest2 ih => simp [process_raw_string, dangling, Option.map_eq_none', ih]
  | case6 rest2 ih => simp [process_raw_string, dangling, Option.map_eq_none', ih]
  | case7 rest2 ih => simp [process_raw_string, dangling, Option.map_eq_none', ih]
  | case8 rest2 ih => simp [process_raw_string, dangling, Option.map_eq_none', ih]
  | case9 rest2 ih => simp [process_raw_string, dangling, ih]
  | case10 c rest2 h1 h2 h3 h4 h5 h6 h7 ih =>
    rw [process_raw_string, dangling]
    · simp [Option.map_eq_none', ih]
    all_goals simp_all
  | case11 c rest h1 ih =>
    rw [process_raw_string, dangling]
    · simp [Option.map_eq_none', ih]
    all_goals simp_all

/-- C9. `process_raw_string` panics (models as `none`) exactly when its input
ends with a backslash that begins an escape sequence with no following
character; and the panic is reachable through the public parser
`Modusfile::from_str`: parsing the clause `l1("a\").`, whose string
constant's raw content is the two characters `a` and `\`, aborts with a
fault instead of returning a parse result. -/
theorem c9_trailing_escape_panic :
    (∀ s : List Char, process_raw_string s = none ↔ dangling s = true)
    ∧ modusfileFromStr "l1(\"a\\\")." = .fault := by
  refine ⟨process_raw_string_none_iff, ?_⟩
  simp [modusfileFromStr, modusfileGo, skipIgnored, modus_clauseP, factP, ruleP, literalP,
    identP, argsP, termP, modus_const, string_content, scRecognize, process_raw_string]

end Modus
